import Mathlib

/-!
Verification of the hook-insertion tool (`add-boot-hooks.py`).

The script reads a boot configuration file, finds the unique uncommented
line `HOOKS=(...)` with a MULTILINE-anchored pattern, splits the captured
interior on whitespace, inserts the tokens `lvm2` and/or `encrypt`
immediately after the first occurrence of the anchor token `block` when
requested and absent, and writes the file back with only the matched line
replaced, after backing up any pre-existing destination file.

Shallow embedding choices:
* file contents are `List Char` (the file is opened with `encoding="ascii"`,
  so contents are modelled after a successful decode);
* the regex `^HOOKS=\((.*?)\)$` with `re.MULTILINE` is modelled line by
  line: `^`/`$` match only at line boundaries and `.` never matches a
  newline, so a match is exactly a whole line that starts with `HOOKS=(`
  and ends with `)`, the capture being the interior; the leftmost match is
  the first such line;
* `str.split()` (split on runs of whitespace, dropping empty pieces),
  `list.insert` and `list.index` are reproduced as executable functions;
* the filesystem is a map from path names to optional file contents, and
  `add_boot_hooks` is a state transformer on it that also reports the
  exception, if any, with which the Python function would abort.
-/

/-- Characters treated as whitespace by Python's `str.split()` on ASCII
text: `\t`, `\n`, `\x0b`, `\x0c`, `\r`, `\x1c`..`\x1f` and space. -/
def pyIsSpace (c : Char) : Bool :=
  c == ' ' || c == '\t' || c == '\n' || c == '\x0b' || c == '\x0c' ||
    c == '\r' || c == '\x1c' || c == '\x1d' || c == '\x1e' || c == '\x1f'

/-- Accumulator worker for `pySplit`: `acc` holds the characters of the
current token in reverse. -/
def pySplitAcc (acc : List Char) : List Char → List (List Char)
  | [] => if acc = [] then [] else [acc.reverse]
  | c :: cs =>
    if pyIsSpace c then
      if acc = [] then pySplitAcc [] cs else acc.reverse :: pySplitAcc [] cs
    else
      pySplitAcc (c :: acc) cs

/-- Python `str.split()` with no separator: split on runs of whitespace,
discarding empty pieces (this is line 47 of the script, `hook_match[1].split()`). -/
def pySplit (s : List Char) : List (List Char) :=
  pySplitAcc [] s

/-- Accumulator worker for `splitCh`. -/
def splitChAcc (sep : Char) (acc : List Char) : List Char → List (List Char)
  | [] => [acc.reverse]
  | c :: cs =>
    if c = sep then acc.reverse :: splitChAcc sep [] cs
    else splitChAcc sep (c :: acc) cs

/-- Split a character sequence at every occurrence of `sep`, keeping empty
pieces (used with `sep = newline` to view the file as its list of lines). -/
def splitCh (sep : Char) (s : List Char) : List (List Char) :=
  splitChAcc sep [] s

/-- The tail of an intercalation: one copy of `sep` before each element,
all concatenated. -/
def joinTail (sep : Char) (ls : List (List Char)) : List Char :=
  (ls.map fun l => sep :: l).flatten

/-- Join pieces with a single `sep` between consecutive pieces; inverse of
`splitCh sep`.  With `sep = ' '` this is Python's `' '.join`. -/
def joinCh (sep : Char) : List (List Char) → List Char
  | [] => []
  | l :: ls => l ++ joinTail sep ls

/-- `' '.join(hooks)` from line 53 of the script. -/
def joinSp (ts : List (List Char)) : List Char :=
  joinCh ' ' ts

/-- The literal characters `HOOKS=(` that a matching line must start with. -/
def hooksHead : List Char :=
  "HOOKS=(".toList

/-- Reassemble a full HOOKS line from its interior: `HOOKS=(` ++ mid ++ `)`. -/
def mkHooksLine (mid : List Char) : List Char :=
  hooksHead ++ mid ++ [')']

/-- Per-line model of the pattern `^HOOKS=\((.*?)\)$` under `re.MULTILINE`:
a line matches iff it starts with `HOOKS=(` and its last character is `)`
(the lazy capture must be followed by `\)` and then the end of the line, and
`.` cannot cross a newline, so the capture runs to the line's final `)`).
Returns the captured interior. -/
def matchHooksLine? (line : List Char) : Option (List Char) :=
  if line.take 7 = hooksHead ∧ line.getLast? = some ')' then
    some ((line.drop 7).dropLast)
  else
    none

/-- `re.search` over the whole file: index of the first matching line
together with its capture (leftmost match of the MULTILINE pattern). -/
def findHooksIdx : List (List Char) → Option (Nat × List Char)
  | [] => none
  | l :: ls =>
    match matchHooksLine? l with
    | some cap => some (0, cap)
    | none => (findHooksIdx ls).map fun p => (p.1 + 1, p.2)

/-- Python `list.index`, as an `Option`: index of the first occurrence of
`x`, or `none` where Python raises `ValueError`. -/
def listIndex? {α : Type} [DecidableEq α] (x : α) : List α → Option Nat
  | [] => none
  | a :: as => if a = x then some 0 else (listIndex? x as).map (· + 1)

/-- Python `list.insert i x`: insert `x` so that it ends up at position `i`
(appending when `i` is past the end). -/
def pyInsert {α : Type} (i : Nat) (x : α) : List α → List α
  | [] => [x]
  | a :: as =>
    match i with
    | 0 => x :: a :: as
    | i + 1 => a :: pyInsert i x as

/-- `LVM_BOOT_HOOK = "lvm2"`. -/
def lvm2Tok : List Char := "lvm2".toList

/-- `ENCRYPT_BOOT_HOOK = "encrypt"`. -/
def encryptTok : List Char := "encrypt".toList

/-- The anchor token `"block"`. -/
def blockTok : List Char := "block".toList

/-- The exceptions with which `add_boot_hooks` can abort.
`assertFailed` models the script's own `assert ... , msg` (a deliberate,
message-carrying failure); `valueErrorIndex` models the `ValueError` that
`hooks.index("block")` raises and that propagates uncaught; `readFailed`
models an `OSError` from `open(input_file)`. -/
inductive PyErr : Type where
  | assertFailed (msg : String)
  | valueErrorIndex
  | readFailed
deriving DecidableEq

/-- `true` exactly for the failure the script raises itself, with its own
message, as opposed to an exception propagating uncaught from a library
call. -/
def isExplicitFailure : PyErr → Bool
  | .assertFailed _ => true
  | _ => false

/-- The assertion message on line 40 of the script. -/
def noHooksMsg : String :=
  "No HOOKS line found, did you point at the right file?"

/-- One guarded insertion, `if flag and tok not in hooks:
hooks.insert(bi + 1, tok)`: insert `tok` just after position `bi` when the
flag is set and the token is absent from the current list. -/
def insertIfAbsent (flag : Bool) (tok : List Char) (bi : Nat)
    (hooks : List (List Char)) : List (List Char) :=
  if flag = true ∧ tok ∉ hooks then pyInsert (bi + 1) tok hooks else hooks

/-- Lines 49-52 of the script: given the index `bi` of the anchor computed
once up front, insert `lvm2` after the anchor when requested and absent,
then insert `encrypt` at the same position of the already-mutated list when
requested and absent. -/
def hooksAfter (lvm encrypt : Bool) (bi : Nat) (hooks : List (List Char)) :
    List (List Char) :=
  insertIfAbsent encrypt encryptTok bi (insertIfAbsent lvm lvm2Tok bi hooks)

/-- Lines 39-53 plus the reassembly on lines 58-61: the pure content
transformation the script applies to the text it read.  The head/tail
surgery `contents[:start] ++ new line ++ contents[end:]` is expressed by
replacing the matched line in the list of lines and joining back. -/
def rewriteContents (contents : List Char) (lvm encrypt : Bool) :
    Except PyErr (List Char) :=
  let ls := splitCh '\n' contents
  match findHooksIdx ls with
  | none => .error (.assertFailed noHooksMsg)
  | some (i, cap) =>
    let hooks := pySplit cap
    match listIndex? blockTok hooks with
    | none => .error .valueErrorIndex
    | some bi =>
      .ok (joinCh '\n' (ls.set i (mkHooksLine (joinSp (hooksAfter lvm encrypt bi hooks)))))

/-- The capture of the first matching HOOKS line of a file, if any. -/
def hookCapOf (contents : List Char) : Option (List Char) :=
  (findHooksIdx (splitCh '\n' contents)).map Prod.snd

/-- The hook list of a file: the capture split on whitespace. -/
def hookListOf (contents : List Char) : Option (List (List Char)) :=
  (hookCapOf contents).map pySplit

/-- The filesystem, as a map from path names to the contents of the file
there, if one exists. -/
abbrev FS : Type := String → Option (List Char)

/-- Overwrite (or create) the file at `p` with contents `c`. -/
def FS.write (fs : FS) (p : String) (c : List Char) : FS :=
  fun q => if q = p then some c else fs q

/-- Lines 28-32 of the script: if a file exists at the destination, copy it
verbatim to `destination + ".bak"`, overwriting any prior backup. -/
def backupStep (fs : FS) (outputPath : String) : FS :=
  match fs outputPath with
  | some c => FS.write fs (outputPath ++ ".bak") c
  | none => fs

/-- Lines 20-61 of the script, as a transformer of the filesystem state that
also reports the exception, if any, with which the Python function aborts:
early exit when no hook is requested, then backup, then read, then the
rewrite, then the write of the destination. -/
def add_boot_hooks (fs : FS) (inputPath outputPath : String)
    (lvm encrypt : Bool) : FS × Option PyErr :=
  if lvm = false ∧ encrypt = false then
    (fs, none)
  else
    let fs1 := backupStep fs outputPath
    match fs1 inputPath with
    | none => (fs1, some .readFailed)
    | some contents =>
      match rewriteContents contents lvm encrypt with
      | .error e => (fs1, some e)
      | .ok newContents => (FS.write fs1 outputPath newContents, none)

/-! ### Basic facts about `joinCh`, `joinTail`, `splitCh` -/

theorem joinTail_nil (sep : Char) : joinTail sep [] = [] := rfl

theorem joinTail_cons (sep : Char) (l : List Char) (ls : List (List Char)) :
    joinTail sep (l :: ls) = sep :: (l ++ joinTail sep ls) := by
  simp [joinTail]

theorem joinCh_cons (sep : Char) (l : List Char) (ls : List (List Char)) :
    joinCh sep (l :: ls) = l ++ joinTail sep ls := rfl

theorem joinCh_cons_of_ne_nil (sep : Char) (l : List Char)
    {ls : List (List Char)} (h : ls ≠ []) :
    joinCh sep (l :: ls) = l ++ sep :: joinCh sep ls := by
  cases ls with
  | nil => exact absurd rfl h
  | cons m ms => simp [joinCh, joinTail]

theorem splitChAcc_ne_nil (sep : Char) :
    ∀ (s acc : List Char), splitChAcc sep acc s ≠ [] := by
  intro s
  induction s with
  | nil => intro acc; simp [splitChAcc]
  | cons c cs ih =>
    intro acc
    simp only [splitChAcc]
    split
    · simp
    · exact ih _

theorem joinCh_splitChAcc (sep : Char) :
    ∀ (s acc : List Char), joinCh sep (splitChAcc sep acc s) = acc.reverse ++ s := by
  intro s
  induction s with
  | nil => intro acc; simp [splitChAcc, joinCh, joinTail]
  | cons c cs ih =>
    intro acc
    simp only [splitChAcc]
    split
    · rename_i hc
      subst hc
      rw [joinCh_cons_of_ne_nil _ _ (splitChAcc_ne_nil _ _ _), ih []]
      simp
    · rw [ih (c :: acc)]
      simp

/-- Joining the lines of a file back with newlines gives back the file. -/
theorem joinCh_splitCh (sep : Char) (s : List Char) :
    joinCh sep (splitCh sep s) = s := by
  simpa using joinCh_splitChAcc sep s []

theorem not_mem_of_mem_splitChAcc (sep : Char) :
    ∀ (s acc : List Char), sep ∉ acc →
      ∀ l ∈ splitChAcc sep acc s, sep ∉ l := by
  intro s
  induction s with
  | nil =>
    intro acc hacc l hl
    simp only [splitChAcc, List.mem_singleton] at hl
    subst hl
    simpa using hacc
  | cons c cs ih =>
    intro acc hacc l hl
    simp only [splitChAcc] at hl
    split at hl
    · rename_i hc
      subst hc
      rcases List.mem_cons.mp hl with h | h
      · subst h; simpa using hacc
      · exact ih [] (by simp) l h
    · rename_i hc
      refine ih (c :: acc) ?_ l hl
      intro hmem
      rcases List.mem_cons.mp hmem with h | h
      · exact hc h.symm
      · exact hacc h

/-- Every line produced by splitting on `sep` is free of `sep`. -/
theorem not_mem_of_mem_splitCh (sep : Char) (s : List Char) :
    ∀ l ∈ splitCh sep s, sep ∉ l :=
  not_mem_of_mem_splitChAcc sep s [] (by simp)

theorem splitChAcc_append_of_not_mem (sep : Char) :
    ∀ (l : List Char), sep ∉ l →
      ∀ (acc r : List Char),
        splitChAcc sep acc (l ++ r) = splitChAcc sep (l.reverse ++ acc) r := by
  intro l
  induction l with
  | nil => intro _ acc r; simp
  | cons c cs ih =>
    intro hmem acc r
    have hc : ¬ c = sep := fun h => hmem (h ▸ List.mem_cons_self c cs)
    have hcs : sep ∉ cs := fun h => hmem (List.mem_cons_of_mem _ h)
    simp only [List.cons_append, splitChAcc, if_neg hc, List.append_eq]
    rw [ih hcs (c :: acc) r]
    simp

/-- Splitting an intercalation of `sep`-free pieces recovers the pieces. -/
theorem splitCh_joinCh (sep : Char) :
    ∀ (ls : List (List Char)), ls ≠ [] → (∀ l ∈ ls, sep ∉ l) →
      splitCh sep (joinCh sep ls) = ls := by
  intro ls
  induction ls with
  | nil => intro h; exact absurd rfl h
  | cons l ms ih =>
    intro _ hfree
    cases ms with
    | nil =>
      have hl : sep ∉ l := hfree l (by simp)
      have : splitChAcc sep [] (l ++ []) = splitChAcc sep (l.reverse ++ []) [] :=
        splitChAcc_append_of_not_mem sep l hl [] []
      simpa [splitCh, joinCh, joinTail, splitChAcc] using this
    | cons m ms2 =>
      have hl : sep ∉ l := hfree l (by simp)
      have hrest : ∀ x ∈ m :: ms2, sep ∉ x := by
        intro x hx
        exact hfree x (List.mem_cons_of_mem _ hx)
      rw [joinCh_cons_of_ne_nil _ _ (by simp)]
      show splitChAcc sep [] (l ++ sep :: joinCh sep (m :: ms2)) = _
      rw [splitChAcc_append_of_not_mem sep l hl [] _]
      simp only [splitChAcc, List.append_nil, if_pos rfl]
      rw [List.reverse_reverse]
      have := ih (by simp) hrest
      simpa [splitCh] using congrArg (l :: ·) this

/-! ### Facts about `pySplit` and `joinSp` -/

/-- A token is well formed when it is nonempty and contains no whitespace
character; `str.split()` only produces such tokens. -/
def goodTok (t : List Char) : Prop :=
  t ≠ [] ∧ ∀ c ∈ t, pyIsSpace c = false

theorem goodTok_of_mem_pySplitAcc :
    ∀ (s acc : List Char), (∀ c ∈ acc, pyIsSpace c = false) →
      ∀ t ∈ pySplitAcc acc s, goodTok t := by
  intro s
  induction s with
  | nil =>
    intro acc hacc t ht
    simp only [pySplitAcc] at ht
    split at ht
    · simp at ht
    · rename_i hne
      rw [List.mem_singleton] at ht
      subst ht
      refine ⟨by simpa using hne, ?_⟩
      intro c hc
      exact hacc c (List.mem_reverse.mp hc)
  | cons c cs ih =>
    intro acc hacc t ht
    simp only [pySplitAcc] at ht
    split at ht
    · split at ht
      · exact ih [] (by simp) t ht
      · rename_i hne
        rcases List.mem_cons.mp ht with h | h
        · subst h
          refine ⟨by simpa using hne, ?_⟩
          intro x hx
          exact hacc x (List.mem_reverse.mp hx)
        · exact ih [] (by simp) t h
    · rename_i hcsp
      refine ih (c :: acc) ?_ t ht
      intro x hx
      rcases List.mem_cons.mp hx with h | h
      · subst h; simpa using hcsp
      · exact hacc x h

theorem goodTok_of_mem_pySplit (s : List Char) :
    ∀ t ∈ pySplit s, goodTok t :=
  goodTok_of_mem_pySplitAcc s [] (by simp)

theorem pySplitAcc_append_of_goodTok :
    ∀ (t : List Char), (∀ c ∈ t, pyIsSpace c = false) →
      ∀ (acc r : List Char),
        pySplitAcc acc (t ++ r) = pySplitAcc (t.reverse ++ acc) r := by
  intro t
  induction t with
  | nil => intro _ acc r; simp
  | cons c cs ih =>
    intro hgood acc r
    have hc : pyIsSpace c = false := hgood c (by simp)
    have hcs : ∀ x ∈ cs, pyIsSpace x = false := by
      intro x hx
      exact hgood x (List.mem_cons_of_mem _ hx)
    simp only [List.cons_append, pySplitAcc, hc, Bool.false_eq_true, if_false,
      List.append_eq]
    rw [ih hcs (c :: acc) r]
    simp

/-- Splitting a single-space join of well-formed tokens recovers the
tokens: the reparse of a rewritten HOOKS interior. -/
theorem pySplit_joinSp :
    ∀ (ts : List (List Char)), (∀ t ∈ ts, goodTok t) →
      pySplit (joinSp ts) = ts := by
  intro ts
  induction ts with
  | nil => intro; rfl
  | cons t ms ih =>
    intro hgood
    have ht : goodTok t := hgood t (by simp)
    cases ms with
    | nil =>
      show pySplitAcc [] (joinCh ' ' [t]) = [t]
      have : joinCh ' ' [t] = t ++ [] := by simp [joinCh, joinTail]
      rw [this, pySplitAcc_append_of_goodTok t ht.2 [] []]
      have hne : ¬ t.reverse ++ [] = [] := by
        simpa using ht.1
      simp only [pySplitAcc, if_neg hne]
      simp
    | cons m ms2 =>
      have hrest : ∀ x ∈ m :: ms2, goodTok x := by
        intro x hx
        exact hgood x (List.mem_cons_of_mem _ hx)
      show pySplitAcc [] (joinCh ' ' (t :: m :: ms2)) = _
      rw [joinCh_cons_of_ne_nil _ _ (by simp)]
      rw [pySplitAcc_append_of_goodTok t ht.2 [] _]
      have hsp : pyIsSpace ' ' = true := by decide
      have hne : ¬ (t.reverse : List Char) = [] := by simpa using ht.1
      simp only [List.append_nil, pySplitAcc, hsp, if_pos, if_neg hne]
      rw [List.reverse_reverse]
      exact congrArg (t :: ·) (ih hrest)

/-! ### Facts about `listIndex?` and `pyInsert` -/

theorem listIndex?_lt_length {α : Type} [DecidableEq α] {x : α} :
    ∀ {l : List α} {i : Nat}, listIndex? x l = some i → i < l.length := by
  intro l
  induction l with
  | nil => intro i h; simp [listIndex?] at h
  | cons a as ih =>
    intro i h
    simp only [listIndex?] at h
    split at h
    · cases h; simp
    · rcases Option.map_eq_some'.mp h with ⟨j, hj, hji⟩
      subst hji
      simpa using Nat.succ_lt_succ (ih hj)

theorem mem_of_listIndex? {α : Type} [DecidableEq α] {x : α} :
    ∀ {l : List α} {i : Nat}, listIndex? x l = some i → x ∈ l := by
  intro l
  induction l with
  | nil => intro i h; simp [listIndex?] at h
  | cons a as ih =>
    intro i h
    simp only [listIndex?] at h
    split at h
    · rename_i ha; exact ha ▸ List.mem_cons_self a as
    · rcases Option.map_eq_some'.mp h with ⟨j, hj, _⟩
      exact List.mem_cons_of_mem _ (ih hj)

theorem listIndex?_isSome_of_mem {α : Type} [DecidableEq α] {x : α} :
    ∀ {l : List α}, x ∈ l → ∃ i, listIndex? x l = some i := by
  intro l
  induction l with
  | nil => intro h; simp at h
  | cons a as ih =>
    intro h
    by_cases ha : a = x
    · exact ⟨0, by simp [listIndex?, ha]⟩
    · have hx : x ∈ as := by
        rcases List.mem_cons.mp h with h1 | h1
        · exact absurd h1.symm ha
        · exact h1
      rcases ih hx with ⟨j, hj⟩
      exact ⟨j + 1, by simp [listIndex?, ha, hj]⟩

theorem pyInsert_eq_take_drop {α : Type} (x : α) :
    ∀ (l : List α) (i : Nat), i ≤ l.length →
      pyInsert i x l = l.take i ++ x :: l.drop i := by
  intro l
  induction l with
  | nil =>
    intro i hi
    have : i = 0 := Nat.le_zero.mp hi
    subst this
    rfl
  | cons a as ih =>
    intro i hi
    cases i with
    | zero => rfl
    | succ j =>
      have hj : j ≤ as.length := Nat.le_of_succ_le_succ hi
      show a :: pyInsert j x as = _
      rw [ih j hj]
      rfl

theorem mem_pyInsert {α : Type} {y x : α} :
    ∀ {l : List α} {i : Nat}, y ∈ pyInsert i x l ↔ y = x ∨ y ∈ l := by
  intro l
  induction l with
  | nil => intro i; cases i <;> simp [pyInsert]
  | cons a as ih =>
    intro i
    cases i with
    | zero => simp [pyInsert]
    | succ j =>
      show y ∈ a :: pyInsert j x as ↔ _
      rw [List.mem_cons, ih, List.mem_cons]
      tauto

/-! ### Facts about the line matcher and the line search -/

theorem hooksHead_length : hooksHead.length = 7 := by decide

/-- Reassembled HOOKS lines always match the pattern again, capturing
exactly the interior they were built from. -/
theorem matchHooksLine?_mk (mid : List Char) :
    matchHooksLine? (mkHooksLine mid) = some mid := by
  unfold matchHooksLine? mkHooksLine
  have h1 : (hooksHead ++ mid ++ [')']).take 7 = hooksHead := by
    rw [List.append_assoc]
    exact List.take_left' hooksHead_length
  have h2 : (hooksHead ++ mid ++ [')']).getLast? = some ')' :=
    List.getLast?_concat _
  rw [if_pos ⟨h1, h2⟩]
  have h3 : (hooksHead ++ mid ++ [')']).drop 7 = mid ++ [')'] := by
    rw [List.append_assoc]
    exact List.drop_left' hooksHead_length
  rw [h3, List.dropLast_concat]

/-- A line the pattern matches with capture `cap` is exactly
`HOOKS=(` ++ cap ++ `)`. -/
theorem eq_mkHooksLine_of_matchHooksLine? {line cap : List Char}
    (h : matchHooksLine? line = some cap) : line = mkHooksLine cap := by
  unfold matchHooksLine? at h
  split at h
  · rename_i hcond
    obtain ⟨h1, h2⟩ := hcond
    cases h
    have hsplit : line = hooksHead ++ line.drop 7 := by
      conv_lhs => rw [← List.take_append_drop 7 line]
      rw [h1]
    have hdne : line.drop 7 ≠ [] := by
      intro hnil
      rw [hnil, List.append_nil] at hsplit
      rw [hsplit] at h2
      exact absurd h2 (by decide)
    have hlast : (line.drop 7).getLast? = some ')' := by
      rw [hsplit, List.getLast?_append,
        Option.or_of_isSome (by rwa [List.getLast?_isSome])] at h2
      exact h2
    have hd : line.drop 7 = (line.drop 7).dropLast ++ [')'] := by
      conv_lhs => rw [← List.dropLast_concat_getLast hdne]
      rw [(List.getLast_eq_iff_getLast_eq_some hdne).mpr hlast]
    unfold mkHooksLine
    rw [List.append_assoc, ← hd]
    exact hsplit
  · exact absurd h (by simp)

theorem findHooksIdx_some :
    ∀ {ls : List (List Char)} {i : Nat} {cap : List Char},
      findHooksIdx ls = some (i, cap) →
        i < ls.length ∧ matchHooksLine? (ls.getD i []) = some cap := by
  intro ls
  induction ls with
  | nil => intro i cap h; simp [findHooksIdx] at h
  | cons l t ih =>
    intro i cap h
    simp only [findHooksIdx] at h
    split at h
    · rename_i c hc
      cases h
      exact ⟨by simp, by simpa using hc⟩
    · rcases Option.map_eq_some'.mp h with ⟨⟨j, c⟩, hj, hji⟩
      cases hji
      rcases ih hj with ⟨h1, h2⟩
      exact ⟨Nat.succ_lt_succ h1, by simpa using h2⟩

/-- Replacing the first matching line with another matching line keeps it
the first match, with the new capture. -/
theorem findHooksIdx_set :
    ∀ {ls : List (List Char)} {i : Nat} {cap : List Char},
      findHooksIdx ls = some (i, cap) →
        ∀ {newl : List Char} {cap2 : List Char},
          matchHooksLine? newl = some cap2 →
          findHooksIdx (ls.set i newl) = some (i, cap2) := by
  intro ls
  induction ls with
  | nil => intro i cap h; simp [findHooksIdx] at h
  | cons l t ih =>
    intro i cap h newl cap2 hnew
    simp only [findHooksIdx] at h
    split at h
    · rename_i c hc
      cases h
      simp [findHooksIdx, hnew]
    · rename_i hc
      rcases Option.map_eq_some'.mp h with ⟨⟨j, c⟩, hj, hji⟩
      cases hji
      show findHooksIdx (l :: t.set j newl) = _
      simp only [findHooksIdx, hc, ih hj hnew, Option.map_some']

/-! ### Decomposing a join around one replaced element -/

theorem joinTail_set_decomp (sep : Char) :
    ∀ (t : List (List Char)) (i : Nat), i < t.length →
      ∃ head tail, joinTail sep t = head ++ t.getD i [] ++ tail ∧
        ∀ y, joinTail sep (t.set i y) = head ++ y ++ tail := by
  intro t
  induction t with
  | nil => intro i hi; simp at hi
  | cons m r ih =>
    intro i hi
    cases i with
    | zero =>
      refine ⟨[sep], joinTail sep r, ?_, ?_⟩
      · simp [joinTail_cons]
      · intro y
        simp [joinTail_cons]
    | succ j =>
      have hj : j < r.length := Nat.lt_of_succ_lt_succ hi
      rcases ih j hj with ⟨head, tail, h1, h2⟩
      refine ⟨sep :: m ++ head, tail, ?_, ?_⟩
      · rw [joinTail_cons, List.getD_cons_succ, h1]
        simp
      · intro y
        show joinTail sep (m :: r.set j y) = _
        rw [joinTail_cons, h2 y]
        simp

/-- Splitting a file at one position: the join of the lines is a fixed
head, the selected line, and a fixed tail, and replacing that line replaces
exactly the middle. -/
theorem joinCh_set_decomp (sep : Char) :
    ∀ (ls : List (List Char)) (i : Nat), i < ls.length →
      ∃ head tail, joinCh sep ls = head ++ ls.getD i [] ++ tail ∧
        ∀ y, joinCh sep (ls.set i y) = head ++ y ++ tail := by
  intro ls
  induction ls with
  | nil => intro i hi; simp at hi
  | cons l t ih =>
    intro i hi
    cases i with
    | zero =>
      refine ⟨[], joinTail sep t, ?_, ?_⟩
      · simp [joinCh_cons]
      · intro y
        simp [joinCh_cons]
    | succ j =>
      have hj : j < t.length := Nat.lt_of_succ_lt_succ hi
      rcases joinTail_set_decomp sep t j hj with ⟨head, tail, h1, h2⟩
      refine ⟨l ++ head, tail, ?_, ?_⟩
      · rw [joinCh_cons, List.getD_cons_succ, h1]
        simp
      · intro y
        show joinCh sep (l :: t.set j y) = _
        rw [joinCh_cons, h2 y]
        simp

/-! ### Characters occurring in joins and in rebuilt HOOKS lines -/

theorem mem_joinCh {c sep : Char} :
    ∀ {ls : List (List Char)}, c ∈ joinCh sep ls →
      c = sep ∨ ∃ l ∈ ls, c ∈ l := by
  intro ls
  induction ls with
  | nil => intro h; simp [joinCh] at h
  | cons l t ih =>
    intro h
    rw [joinCh_cons, List.mem_append] at h
    rcases h with h | h
    · exact Or.inr ⟨l, by simp, h⟩
    · cases t with
      | nil => simp [joinTail] at h
      | cons m ms =>
        rw [joinTail_cons, List.mem_cons] at h
        rcases h with h | h
        · exact Or.inl h
        · rcases ih (by rwa [joinCh_cons]) with h1 | ⟨x, hx, hcx⟩
          · exact Or.inl h1
          · exact Or.inr ⟨x, List.mem_cons_of_mem _ hx, hcx⟩

/-- A HOOKS line rebuilt from well-formed tokens contains no newline, so
it stays a single line of the output file. -/
theorem newline_not_mem_mkHooksLine {ts : List (List Char)}
    (hts : ∀ t ∈ ts, goodTok t) : '\n' ∉ mkHooksLine (joinSp ts) := by
  intro hmem
  unfold mkHooksLine at hmem
  rcases List.mem_append.mp hmem with h | h
  · rcases List.mem_append.mp h with h1 | h1
    · exact absurd h1 (by decide)
    · rcases mem_joinCh h1 with h2 | ⟨t, ht, hct⟩
      · exact absurd h2 (by decide)
      · have := (hts t ht).2 '\n' hct
        exact absurd this (by decide)
  · exact absurd h (by decide)

/-! ### Facts about `insertIfAbsent` and `hooksAfter` -/

theorem goodTok_lvm2 : goodTok lvm2Tok := by
  constructor
  · decide
  · decide

theorem goodTok_encrypt : goodTok encryptTok := by
  constructor
  · decide
  · decide

theorem mem_insertIfAbsent_of_mem {y : List Char} {hooks : List (List Char)}
    (h : y ∈ hooks) (flag : Bool) (tok : List Char) (bi : Nat) :
    y ∈ insertIfAbsent flag tok bi hooks := by
  unfold insertIfAbsent
  split
  · exact mem_pyInsert.mpr (Or.inr h)
  · exact h

theorem tok_mem_insertIfAbsent (tok : List Char) (bi : Nat)
    (hooks : List (List Char)) : tok ∈ insertIfAbsent true tok bi hooks := by
  unfold insertIfAbsent
  by_cases h : tok ∈ hooks
  · rw [if_neg (fun hc => hc.2 h)]
    exact h
  · rw [if_pos ⟨rfl, h⟩]
    exact mem_pyInsert.mpr (Or.inl rfl)

theorem insertIfAbsent_eq_of_mem {tok : List Char} {hooks : List (List Char)}
    (h : tok ∈ hooks) (flag : Bool) (bi : Nat) :
    insertIfAbsent flag tok bi hooks = hooks := by
  unfold insertIfAbsent
  exact if_neg (fun hc => hc.2 h)

theorem goodTok_of_mem_insertIfAbsent {tok : List Char}
    {hooks : List (List Char)} (htok : goodTok tok)
    (hg : ∀ t ∈ hooks, goodTok t) (flag : Bool) (bi : Nat) :
    ∀ t ∈ insertIfAbsent flag tok bi hooks, goodTok t := by
  intro t ht
  unfold insertIfAbsent at ht
  split at ht
  · rcases mem_pyInsert.mp ht with h | h
    · exact h ▸ htok
    · exact hg t h
  · exact hg t ht

theorem mem_hooksAfter_of_mem {y : List Char} {hooks : List (List Char)}
    (h : y ∈ hooks) (lvm encrypt : Bool) (bi : Nat) :
    y ∈ hooksAfter lvm encrypt bi hooks :=
  mem_insertIfAbsent_of_mem (mem_insertIfAbsent_of_mem h lvm lvm2Tok bi)
    encrypt encryptTok bi

theorem lvm2_mem_hooksAfter (encrypt : Bool) (bi : Nat)
    (hooks : List (List Char)) :
    lvm2Tok ∈ hooksAfter true encrypt bi hooks :=
  mem_insertIfAbsent_of_mem (tok_mem_insertIfAbsent lvm2Tok bi hooks)
    encrypt encryptTok bi

theorem encrypt_mem_hooksAfter (lvm : Bool) (bi : Nat)
    (hooks : List (List Char)) :
    encryptTok ∈ hooksAfter lvm true bi hooks :=
  tok_mem_insertIfAbsent encryptTok bi _

/-- When both insertable hooks are already present nothing is inserted,
whatever the flags. -/
theorem hooksAfter_eq_of_mem {hooks : List (List Char)}
    (h1 : lvm2Tok ∈ hooks) (h2 : encryptTok ∈ hooks)
    (lvm encrypt : Bool) (bi : Nat) :
    hooksAfter lvm encrypt bi hooks = hooks := by
  unfold hooksAfter
  rw [insertIfAbsent_eq_of_mem h1, insertIfAbsent_eq_of_mem h2]

theorem goodTok_of_mem_hooksAfter {hooks : List (List Char)}
    (hg : ∀ t ∈ hooks, goodTok t) (lvm encrypt : Bool) (bi : Nat) :
    ∀ t ∈ hooksAfter lvm encrypt bi hooks, goodTok t :=
  goodTok_of_mem_insertIfAbsent goodTok_encrypt
    (goodTok_of_mem_insertIfAbsent goodTok_lvm2 hg lvm bi) encrypt bi

/-! ### Running `rewriteContents`: construction and inversion -/

theorem rewriteContents_ok {contents : List Char} {i : Nat}
    {cap : List Char} {bi : Nat} (lvm encrypt : Bool)
    (h1 : findHooksIdx (splitCh '\n' contents) = some (i, cap))
    (h2 : listIndex? blockTok (pySplit cap) = some bi) :
    rewriteContents contents lvm encrypt =
      .ok (joinCh '\n' ((splitCh '\n' contents).set i
        (mkHooksLine (joinSp (hooksAfter lvm encrypt bi (pySplit cap)))))) := by
  simp [rewriteContents, h1, h2]

theorem rewriteContents_ok_elim {contents out : List Char}
    {lvm encrypt : Bool}
    (h : rewriteContents contents lvm encrypt = .ok out) :
    ∃ i cap bi,
      findHooksIdx (splitCh '\n' contents) = some (i, cap) ∧
      listIndex? blockTok (pySplit cap) = some bi ∧
      out = joinCh '\n' ((splitCh '\n' contents).set i
        (mkHooksLine (joinSp (hooksAfter lvm encrypt bi (pySplit cap))))) := by
  simp only [rewriteContents] at h
  split at h
  · exact absurd h (by simp)
  · rename_i i cap hfind
    split at h
    · exact absurd h (by simp)
    · rename_i bi hbi
      refine ⟨i, cap, bi, hfind, hbi, ?_⟩
      cases h
      rfl

/-- Parsing the rewritten file: its lines are the old lines with line `i`
replaced, the first matching line is still line `i`, its capture is the
single-space join of the new tokens, and splitting that capture gives back
the new tokens. -/
theorem parse_of_rewritten {contents : List Char} {i : Nat} {cap : List Char}
    (h1 : findHooksIdx (splitCh '\n' contents) = some (i, cap))
    {ts : List (List Char)} (hts : ∀ t ∈ ts, goodTok t) :
    splitCh '\n' (joinCh '\n' ((splitCh '\n' contents).set i
        (mkHooksLine (joinSp ts)))) =
      (splitCh '\n' contents).set i (mkHooksLine (joinSp ts)) ∧
    findHooksIdx (splitCh '\n' (joinCh '\n' ((splitCh '\n' contents).set i
        (mkHooksLine (joinSp ts))))) = some (i, joinSp ts) ∧
    pySplit (joinSp ts) = ts := by
  have hlen : i < (splitCh '\n' contents).length := (findHooksIdx_some h1).1
  have hsplit : splitCh '\n' (joinCh '\n' ((splitCh '\n' contents).set i
      (mkHooksLine (joinSp ts)))) =
      (splitCh '\n' contents).set i (mkHooksLine (joinSp ts)) := by
    refine splitCh_joinCh '\n' _ ?_ ?_
    · intro hnil
      have hl2 := congrArg List.length hnil
      rw [List.length_set, List.length_nil] at hl2
      omega
    · intro l hl
      rcases List.mem_or_eq_of_mem_set hl with h | h
      · exact not_mem_of_mem_splitCh '\n' contents l h
      · exact h ▸ newline_not_mem_mkHooksLine hts
  refine ⟨hsplit, ?_, pySplit_joinSp ts hts⟩
  rw [hsplit]
  exact findHooksIdx_set h1 (matchHooksLine?_mk _)

/-! ### Facts about the filesystem model and `add_boot_hooks` -/

/-- The destination path is never its own backup path. -/
theorem ne_bak (p : String) : p ≠ p ++ ".bak" := by
  intro he
  have hlen := congrArg String.length he
  rw [String.length_append] at hlen
  have h4 : (".bak" : String).length = 4 := rfl
  omega

theorem FS.write_self (fs : FS) (p : String) (c : List Char) :
    FS.write fs p c p = some c := by
  simp [FS.write]

theorem FS.write_other (fs : FS) (p : String) (c : List Char) {q : String}
    (h : q ≠ p) : FS.write fs p c q = fs q := by
  simp [FS.write, h]

/-- After the backup step the backup path holds the destination's
pre-operation content. -/
theorem backupStep_bak {fs : FS} {outputPath : String} {X : List Char}
    (h : fs outputPath = some X) :
    backupStep fs outputPath (outputPath ++ ".bak") = some X := by
  unfold backupStep
  rw [h]
  exact FS.write_self fs _ X

/-- The backup step touches no path other than the backup path. -/
theorem backupStep_other (fs : FS) (outputPath : String) {q : String}
    (h : q ≠ outputPath ++ ".bak") : backupStep fs outputPath q = fs q := by
  unfold backupStep
  cases hout : fs outputPath with
  | none => rfl
  | some c => exact FS.write_other fs _ c h

theorem add_boot_hooks_read_none {fs : FS} {inp outp : String}
    {lvm encrypt : Bool} (hflag : lvm = true ∨ encrypt = true)
    (hread : backupStep fs outp inp = none) :
    add_boot_hooks fs inp outp lvm encrypt =
      (backupStep fs outp, some .readFailed) := by
  have hcond : ¬(lvm = false ∧ encrypt = false) := by
    rcases hflag with h | h <;> simp [h]
  simp [add_boot_hooks, hcond, hread]

theorem add_boot_hooks_rewrite_error {fs : FS} {inp outp : String}
    {lvm encrypt : Bool} {contents : List Char} {e : PyErr}
    (hflag : lvm = true ∨ encrypt = true)
    (hread : backupStep fs outp inp = some contents)
    (herr : rewriteContents contents lvm encrypt = .error e) :
    add_boot_hooks fs inp outp lvm encrypt = (backupStep fs outp, some e) := by
  have hcond : ¬(lvm = false ∧ encrypt = false) := by
    rcases hflag with h | h <;> simp [h]
  simp [add_boot_hooks, hcond, hread, herr]

theorem add_boot_hooks_rewrite_ok {fs : FS} {inp outp : String}
    {lvm encrypt : Bool} {contents newContents : List Char}
    (hflag : lvm = true ∨ encrypt = true)
    (hread : backupStep fs outp inp = some contents)
    (hok : rewriteContents contents lvm encrypt = .ok newContents) :
    add_boot_hooks fs inp outp lvm encrypt =
      (FS.write (backupStep fs outp) outp newContents, none) := by
  have hcond : ¬(lvm = false ∧ encrypt = false) := by
    rcases hflag with h | h <;> simp [h]
  simp [add_boot_hooks, hcond, hread, hok]

theorem rewriteContents_no_hooks_line {contents : List Char}
    (lvm encrypt : Bool)
    (h : findHooksIdx (splitCh '\n' contents) = none) :
    rewriteContents contents lvm encrypt =
      .error (.assertFailed noHooksMsg) := by
  simp [rewriteContents, h]

theorem rewriteContents_no_anchor {contents : List Char} {i : Nat}
    {cap : List Char} (lvm encrypt : Bool)
    (h1 : findHooksIdx (splitCh '\n' contents) = some (i, cap))
    (h2 : listIndex? blockTok (pySplit cap) = none) :
    rewriteContents contents lvm encrypt = .error .valueErrorIndex := by
  simp [rewriteContents, h1, h2]

theorem listIndex?_eq_none_of_not_mem {α : Type} [DecidableEq α] {x : α}
    {l : List α} (h : x ∉ l) : listIndex? x l = none := by
  cases hli : listIndex? x l with
  | none => rfl
  | some i => exact absurd (mem_of_listIndex? hli) h

/-! ### Concrete filesystems used to instantiate the theorems -/

/-- A filesystem holding one configuration file whose hook list lacks the
anchor token. -/
def fsNoAnchor : FS :=
  fun p => if p = "conf" then some "HOOKS=(base udev)".toList else none

/-- A filesystem holding one configuration file with no HOOKS line. -/
def fsNoHooksLine : FS :=
  fun p => if p = "conf" then some "FILES=(abc)".toList else none

/-- A filesystem holding one well-formed configuration file. -/
def fsWithBlock : FS :=
  fun p => if p = "conf" then some "HOOKS=(base block fsck)".toList else none

/-! ### The claims -/

/-- C5: with both flags false the operation is an immediate no-op: the
filesystem is returned untouched (no backup, no read, no write) and no
error is raised. -/
theorem add_boot_hooks_no_flags_noop (fs : FS) (inp outp : String) :
    add_boot_hooks fs inp outp false false = (fs, none) := rfl

/-- C4: whenever at least one flag is set and a file exists at the
destination, the final state has a verbatim copy of the destination's
pre-operation content at `outputPath ++ ".bak"` — on the success path, on
the missing-HOOKS-line and missing-anchor failure paths, and on a failed
read alike, and whether or not the input path equals the output path. -/
theorem add_boot_hooks_backs_up_destination (fs : FS) (inp outp : String)
    (lvm encrypt : Bool) (X : List Char)
    (hflag : lvm = true ∨ encrypt = true)
    (hdest : fs outp = some X) :
    ((add_boot_hooks fs inp outp lvm encrypt).1) (outp ++ ".bak") = some X := by
  have hbak : backupStep fs outp (outp ++ ".bak") = some X := backupStep_bak hdest
  cases hread : backupStep fs outp inp with
  | none =>
    rw [add_boot_hooks_read_none hflag hread]
    exact hbak
  | some contents =>
    cases hrw : rewriteContents contents lvm encrypt with
    | error e =>
      rw [add_boot_hooks_rewrite_error hflag hread hrw]
      exact hbak
    | ok nc =>
      rw [add_boot_hooks_rewrite_ok hflag hread hrw]
      show FS.write (backupStep fs outp) outp nc (outp ++ ".bak") = some X
      rw [FS.write_other _ _ _ (Ne.symm (ne_bak outp))]
      exact hbak

theorem add_boot_hooks_backs_up_destination_witness :
    ((add_boot_hooks fsWithBlock "conf" "conf" true false).1) ("conf" ++ ".bak") =
      some "HOOKS=(base block fsck)".toList :=
  add_boot_hooks_backs_up_destination fsWithBlock "conf" "conf" true false
    "HOOKS=(base block fsck)".toList (Or.inl rfl) (by decide)

/-- C3: with at least one flag set, a readable input, and no line matching
the HOOKS pattern, the operation stops with the script's assertion (a
format error carrying the `No HOOKS line found` message): the final state
is exactly the post-backup state, so the destination keeps its previous
content and the only path that can differ from the initial state is the
backup path. -/
theorem add_boot_hooks_no_hooks_line_fails (fs : FS) (inp outp : String)
    (lvm encrypt : Bool) (contents : List Char)
    (hflag : lvm = true ∨ encrypt = true)
    (hread : backupStep fs outp inp = some contents)
    (hnoline : findHooksIdx (splitCh '\n' contents) = none) :
    add_boot_hooks fs inp outp lvm encrypt =
      (backupStep fs outp, some (.assertFailed noHooksMsg)) ∧
    (backupStep fs outp) outp = fs outp ∧
    ∀ q, q ≠ outp ++ ".bak" → (backupStep fs outp) q = fs q :=
  ⟨add_boot_hooks_rewrite_error hflag hread
      (rewriteContents_no_hooks_line lvm encrypt hnoline),
    backupStep_other fs outp (ne_bak outp),
    fun _ hq => backupStep_other fs outp hq⟩

theorem add_boot_hooks_no_hooks_line_fails_witness :
    add_boot_hooks fsNoHooksLine "conf" "conf" true false =
      (backupStep fsNoHooksLine "conf", some (.assertFailed noHooksMsg)) ∧
    (backupStep fsNoHooksLine "conf") "conf" = fsNoHooksLine "conf" ∧
    ∀ q, q ≠ "conf" ++ ".bak" →
      (backupStep fsNoHooksLine "conf") q = fsNoHooksLine q :=
  add_boot_hooks_no_hooks_line_fails fsNoHooksLine "conf" "conf" true false
    "FILES=(abc)".toList (Or.inl rfl) (by decide) (by decide)

/-- C2, counterexample: on an input whose hook list lacks the anchor
`block`, the operation does abort, but the exception it aborts with is the
`ValueError` that `hooks.index("block")` raises, propagating uncaught —
the script has no distinct anchor-not-found error, contradicting the claim
that the failure is such a distinct error rather than an uncaught crash. -/
theorem anchor_missing_error_is_uncaught :
    (add_boot_hooks fsNoAnchor "conf" "conf" true true).2 =
      some PyErr.valueErrorIndex ∧
    isExplicitFailure PyErr.valueErrorIndex = false := by
  constructor
  · decide
  · decide

/-- C2, amended: with at least one flag set, a readable input containing a
HOOKS line whose captured hook list lacks the anchor token `block`, the
operation aborts with the uncaught `ValueError` from the list index lookup
(not a distinct anchor-not-found error), and the destination is not
written: the final state is exactly the post-backup state. -/
theorem add_boot_hooks_no_anchor_fails (fs : FS) (inp outp : String)
    (lvm encrypt : Bool) (contents cap : List Char)
    (hflag : lvm = true ∨ encrypt = true)
    (hread : backupStep fs outp inp = some contents)
    (hcap : hookCapOf contents = some cap)
    (hnoblock : blockTok ∉ pySplit cap) :
    add_boot_hooks fs inp outp lvm encrypt =
      (backupStep fs outp, some .valueErrorIndex) ∧
    (backupStep fs outp) outp = fs outp := by
  rcases Option.map_eq_some'.mp hcap with ⟨⟨i, cap2⟩, hfind, hsnd⟩
  have hc : cap2 = cap := hsnd
  subst hc
  exact ⟨add_boot_hooks_rewrite_error hflag hread
      (rewriteContents_no_anchor lvm encrypt hfind
        (listIndex?_eq_none_of_not_mem hnoblock)),
    backupStep_other fs outp (ne_bak outp)⟩

theorem add_boot_hooks_no_anchor_fails_witness :
    add_boot_hooks fsNoAnchor "conf" "conf" true true =
      (backupStep fsNoAnchor "conf", some .valueErrorIndex) ∧
    (backupStep fsNoAnchor "conf") "conf" = fsNoAnchor "conf" :=
  add_boot_hooks_no_anchor_fails fsNoAnchor "conf" "conf" true true
    "HOOKS=(base udev)".toList "base udev".toList (Or.inl rfl) (by decide)
    (by decide) (by decide)

/-! ### Shape of the hook list after the insertions -/

theorem length_pyInsert {α : Type} (x : α) :
    ∀ (l : List α) (i : Nat), (pyInsert i x l).length = l.length + 1 := by
  intro l
  induction l with
  | nil => intro i; cases i <;> rfl
  | cons a as ih =>
    intro i
    cases i with
    | zero => rfl
    | succ j =>
      show (a :: pyInsert j x as).length = _
      simp [ih j]

theorem length_take_of_le {α : Type} {l : List α} {n : Nat}
    (h : n ≤ l.length) : (l.take n).length = n := by
  rw [List.length_take]
  omega

/-- Inserting a second token at the same position `bi + 1` of an
already-extended list lands it between the anchor and the first inserted
token. -/
theorem pyInsert_pyInsert {α : Type} (x y : α) {l : List α} {bi : Nat}
    (h : bi < l.length) :
    pyInsert (bi + 1) y (pyInsert (bi + 1) x l) =
      l.take (bi + 1) ++ y :: x :: l.drop (bi + 1) := by
  have h1 : bi + 1 ≤ l.length := h
  have htl : (l.take (bi + 1)).length = bi + 1 := length_take_of_le h1
  rw [pyInsert_eq_take_drop x l (bi + 1) h1]
  rw [pyInsert_eq_take_drop y _ (bi + 1)
    (by rw [List.length_append, htl]; omega)]
  rw [List.take_left' htl, List.drop_left' htl]

/-- The full case analysis of lines 49-52: the hook list after the guarded
insertions is the original list with a block of zero, one or two new tokens
spliced in immediately after position `bi`. -/
theorem hooksAfter_decomp (lvm encrypt : Bool) {bi : Nat}
    {hooks : List (List Char)} (hlen : bi < hooks.length) :
    ∃ ins, hooksAfter lvm encrypt bi hooks =
        hooks.take (bi + 1) ++ ins ++ hooks.drop (bi + 1) ∧
      (ins = [] ∨ ins = [lvm2Tok] ∨ ins = [encryptTok] ∨
        ins = [encryptTok, lvm2Tok]) := by
  have h1 : bi + 1 ≤ hooks.length := hlen
  have htl : (hooks.take (bi + 1)).length = bi + 1 := length_take_of_le h1
  unfold hooksAfter insertIfAbsent
  by_cases hL : lvm = true ∧ lvm2Tok ∉ hooks
  · rw [if_pos hL]
    by_cases hE : encrypt = true ∧ encryptTok ∉ pyInsert (bi + 1) lvm2Tok hooks
    · rw [if_pos hE]
      refine ⟨[encryptTok, lvm2Tok], ?_, by simp⟩
      rw [pyInsert_pyInsert lvm2Tok encryptTok hlen]
      simp
    · rw [if_neg hE]
      refine ⟨[lvm2Tok], ?_, by simp⟩
      rw [pyInsert_eq_take_drop lvm2Tok hooks (bi + 1) h1]
      simp
  · rw [if_neg hL]
    by_cases hE : encrypt = true ∧ encryptTok ∉ hooks
    · rw [if_pos hE]
      refine ⟨[encryptTok], ?_, by simp⟩
      rw [pyInsert_eq_take_drop encryptTok hooks (bi + 1) h1]
      simp
    · rw [if_neg hE]
      exact ⟨[], by simp, by simp⟩

/-- With both flags set and both hooks absent, the insertions put
`encrypt` directly after the anchor position and `lvm2` directly after it:
the later insertion at the same index pushes the earlier one right. -/
theorem hooksAfter_both_absent {bi : Nat} {hooks : List (List Char)}
    (hlen : bi < hooks.length) (hl : lvm2Tok ∉ hooks)
    (he : encryptTok ∉ hooks) :
    hooksAfter true true bi hooks =
      hooks.take (bi + 1) ++ encryptTok :: lvm2Tok :: hooks.drop (bi + 1) := by
  unfold hooksAfter insertIfAbsent
  have hLc : true = true ∧ lvm2Tok ∉ hooks := ⟨rfl, hl⟩
  rw [if_pos hLc]
  have hE : encryptTok ∉ pyInsert (bi + 1) lvm2Tok hooks := by
    intro hmem
    rcases mem_pyInsert.mp hmem with h | h
    · exact absurd h (by decide)
    · exact he h
  have hEc : true = true ∧ encryptTok ∉ pyInsert (bi + 1) lvm2Tok hooks :=
    ⟨rfl, hE⟩
  rw [if_pos hEc]
  rw [pyInsert_pyInsert lvm2Tok encryptTok hlen]

theorem hookListOf_elim {contents : List Char} {hooks : List (List Char)}
    (h : hookListOf contents = some hooks) :
    ∃ i cap, findHooksIdx (splitCh '\n' contents) = some (i, cap) ∧
      pySplit cap = hooks := by
  rcases Option.map_eq_some'.mp h with ⟨cap, hcap, hsplit⟩
  rcases Option.map_eq_some'.mp hcap with ⟨⟨i, cap2⟩, hfind, hsnd⟩
  refine ⟨i, cap2, hfind, ?_⟩
  rw [show cap2 = cap from hsnd]
  exact hsplit

/-- C1: on an input whose HOOKS line contains the anchor `block` (first
occurrence at index `bi`) and contains neither `lvm2` nor `encrypt`,
running the rewrite with both flags set succeeds and produces a hook list
with `encrypt` immediately after the anchor and `lvm2` immediately after
`encrypt`: both are inserted at `bi + 1`, the later insertion pushing the
earlier one a slot further. -/
theorem rewrite_both_flags_encrypt_then_lvm2 (contents : List Char)
    (hooks : List (List Char)) (bi : Nat)
    (hparse : hookListOf contents = some hooks)
    (hanchor : listIndex? blockTok hooks = some bi)
    (hlvm : lvm2Tok ∉ hooks) (henc : encryptTok ∉ hooks) :
    ∃ out, rewriteContents contents true true = .ok out ∧
      hookListOf out = some (hooks.take (bi + 1) ++
        encryptTok :: lvm2Tok :: hooks.drop (bi + 1)) := by
  rcases hookListOf_elim hparse with ⟨i, cap, hfind, hsplit⟩
  subst hsplit
  have hbi : listIndex? blockTok (pySplit cap) = some bi := hanchor
  have hlen : bi < (pySplit cap).length := listIndex?_lt_length hbi
  have hts : hooksAfter true true bi (pySplit cap) =
      (pySplit cap).take (bi + 1) ++
        encryptTok :: lvm2Tok :: (pySplit cap).drop (bi + 1) :=
    hooksAfter_both_absent hlen hlvm henc
  have hgood : ∀ t ∈ hooksAfter true true bi (pySplit cap), goodTok t :=
    goodTok_of_mem_hooksAfter (goodTok_of_mem_pySplit cap) true true bi
  obtain ⟨hs1, hs2, hs3⟩ := parse_of_rewritten hfind hgood
  refine ⟨_, rewriteContents_ok true true hfind hbi, ?_⟩
  unfold hookListOf hookCapOf
  rw [hs2]
  simp only [Option.map_some']
  rw [hs3, hts]

/-- The file and hook list used to instantiate the both-flags claim. -/
def blockFsContents : List Char := "HOOKS=(block filesystems)".toList

/-- The parsed hook list of `blockFsContents`. -/
def blockFsHooks : List (List Char) := [blockTok, "filesystems".toList]

theorem rewrite_both_flags_encrypt_then_lvm2_witness :
    ∃ out, rewriteContents blockFsContents true true = .ok out ∧
      hookListOf out = some (blockFsHooks.take 1 ++
        encryptTok :: lvm2Tok :: blockFsHooks.drop 1) :=
  rewrite_both_flags_encrypt_then_lvm2 blockFsContents blockFsHooks 0
    (by decide) (by decide) (by decide) (by decide)

/-- C8: single-flag insertion.  With the anchor's first occurrence at
index `bi`: if only the LVM flag is set and `lvm2` is absent it is
inserted at position `bi + 1`; symmetrically, if only the encrypt flag is
set and `encrypt` is absent it is inserted at position `bi + 1`. -/
theorem single_flag_insert_after_anchor (hooks : List (List Char)) (bi : Nat)
    (hanchor : listIndex? blockTok hooks = some bi) :
    (lvm2Tok ∉ hooks → hooksAfter true false bi hooks =
        hooks.take (bi + 1) ++ lvm2Tok :: hooks.drop (bi + 1)) ∧
    (encryptTok ∉ hooks → hooksAfter false true bi hooks =
        hooks.take (bi + 1) ++ encryptTok :: hooks.drop (bi + 1)) := by
  have hlen : bi < hooks.length := listIndex?_lt_length hanchor
  have h1 : bi + 1 ≤ hooks.length := hlen
  constructor
  · intro hl
    unfold hooksAfter insertIfAbsent
    have hLc : true = true ∧ lvm2Tok ∉ hooks := ⟨rfl, hl⟩
    rw [if_pos hLc]
    have hEc : ¬(false = true ∧ encryptTok ∉ pyInsert (bi + 1) lvm2Tok hooks) :=
      fun hc => by simpa using hc.1
    rw [if_neg hEc]
    exact pyInsert_eq_take_drop lvm2Tok hooks (bi + 1) h1
  · intro he
    unfold hooksAfter insertIfAbsent
    have hLc : ¬(false = true ∧ lvm2Tok ∉ hooks) := fun hc => by simpa using hc.1
    rw [if_neg hLc]
    have hEc : true = true ∧ encryptTok ∉ hooks := ⟨rfl, he⟩
    rw [if_pos hEc]
    exact pyInsert_eq_take_drop encryptTok hooks (bi + 1) h1

/-- The `pcscd block filesystems` hook list from the claim. -/
def pcscdHooks : List (List Char) :=
  ["pcscd".toList, blockTok, "filesystems".toList]

theorem single_flag_insert_after_anchor_witness :
    hooksAfter true false 1 pcscdHooks =
      pcscdHooks.take 2 ++ lvm2Tok :: pcscdHooks.drop 2 ∧
    hooksAfter false true 1 pcscdHooks =
      pcscdHooks.take 2 ++ encryptTok :: pcscdHooks.drop 2 :=
  ⟨(single_flag_insert_after_anchor pcscdHooks 1 (by decide)).1 (by decide),
   (single_flag_insert_after_anchor pcscdHooks 1 (by decide)).2 (by decide)⟩

/-! ### Idempotence machinery -/

theorem insertIfAbsent_false (tok : List Char) (bi : Nat)
    (hooks : List (List Char)) : insertIfAbsent false tok bi hooks = hooks :=
  if_neg fun hc => by simpa using hc.1

/-- Applying the guarded insertions a second time (with any anchor index)
changes nothing: each requested hook is already present after the first
application. -/
theorem hooksAfter_hooksAfter (lvm encrypt : Bool) (bi bi2 : Nat)
    (hooks : List (List Char)) :
    hooksAfter lvm encrypt bi2 (hooksAfter lvm encrypt bi hooks) =
      hooksAfter lvm encrypt bi hooks := by
  cases lvm <;> cases encrypt
  · have h0 : hooksAfter false false bi2 (hooksAfter false false bi hooks) =
        insertIfAbsent false encryptTok bi2
          (insertIfAbsent false lvm2Tok bi2 (hooksAfter false false bi hooks)) :=
      rfl
    rw [h0, insertIfAbsent_false, insertIfAbsent_false]
  · have h0 : hooksAfter false true bi2 (hooksAfter false true bi hooks) =
        insertIfAbsent true encryptTok bi2
          (insertIfAbsent false lvm2Tok bi2 (hooksAfter false true bi hooks)) :=
      rfl
    rw [h0, insertIfAbsent_false,
      insertIfAbsent_eq_of_mem (encrypt_mem_hooksAfter false bi hooks)]
  · have h0 : hooksAfter true false bi2 (hooksAfter true false bi hooks) =
        insertIfAbsent false encryptTok bi2
          (insertIfAbsent true lvm2Tok bi2 (hooksAfter true false bi hooks)) :=
      rfl
    rw [h0, insertIfAbsent_eq_of_mem (lvm2_mem_hooksAfter false bi hooks),
      insertIfAbsent_false]
  · have h0 : hooksAfter true true bi2 (hooksAfter true true bi hooks) =
        insertIfAbsent true encryptTok bi2
          (insertIfAbsent true lvm2Tok bi2 (hooksAfter true true bi hooks)) :=
      rfl
    rw [h0, insertIfAbsent_eq_of_mem (lvm2_mem_hooksAfter true bi hooks),
      insertIfAbsent_eq_of_mem (encrypt_mem_hooksAfter true bi hooks)]

/-- C6: the rewrite is idempotent.  Whenever a run succeeds, running the
rewrite again with the same flags on its output succeeds and returns the
output unchanged: a hook that is already present is never inserted a
second time, and the reassembled line reparses to the same tokens. -/
theorem rewrite_idempotent (contents out : List Char) (lvm encrypt : Bool)
    (h : rewriteContents contents lvm encrypt = .ok out) :
    rewriteContents out lvm encrypt = .ok out := by
  rcases rewriteContents_ok_elim h with ⟨i, cap, bi, hfind, hbi, hout⟩
  have hgood : ∀ t ∈ hooksAfter lvm encrypt bi (pySplit cap), goodTok t :=
    goodTok_of_mem_hooksAfter (goodTok_of_mem_pySplit cap) lvm encrypt bi
  obtain ⟨hs1, hs2, hs3⟩ := parse_of_rewritten hfind hgood
  subst hout
  have hmem_block : blockTok ∈ hooksAfter lvm encrypt bi (pySplit cap) :=
    mem_hooksAfter_of_mem (mem_of_listIndex? hbi) lvm encrypt bi
  rcases listIndex?_isSome_of_mem hmem_block with ⟨bi2, hbi2⟩
  have hbi2a : listIndex? blockTok
      (pySplit (joinSp (hooksAfter lvm encrypt bi (pySplit cap)))) = some bi2 := by
    rw [hs3]
    exact hbi2
  rw [rewriteContents_ok lvm encrypt hs2 hbi2a]
  congr 1
  rw [hs3, hooksAfter_hooksAfter, hs1, List.set_set]

theorem rewrite_idempotent_witness :
    rewriteContents "HOOKS=(base block encrypt lvm2)".toList true true =
      .ok "HOOKS=(base block encrypt lvm2)".toList :=
  rewrite_idempotent "HOOKS=(base block)".toList
    "HOOKS=(base block encrypt lvm2)".toList true true rfl

/-- C7: frame property.  On every successful run the input splits as a
prefix, the matched HOOKS line, and a suffix, and the output is exactly
the same prefix, the reassembled HOOKS line, and the same suffix — all
content outside the matched line is preserved byte for byte. -/
theorem rewrite_frame (contents out : List Char) (lvm encrypt : Bool)
    (h : rewriteContents contents lvm encrypt = .ok out) :
    ∃ head cap mid tail,
      contents = head ++ mkHooksLine cap ++ tail ∧
      out = head ++ mkHooksLine mid ++ tail := by
  rcases rewriteContents_ok_elim h with ⟨i, cap, bi, hfind, hbi, hout⟩
  obtain ⟨hlen, hmatch⟩ := findHooksIdx_some hfind
  have hline : (splitCh '\n' contents).getD i [] = mkHooksLine cap :=
    eq_mkHooksLine_of_matchHooksLine? hmatch
  rcases joinCh_set_decomp '\n' _ i hlen with ⟨head, tail, hdec1, hdec2⟩
  refine ⟨head, cap, joinSp (hooksAfter lvm encrypt bi (pySplit cap)), tail,
    ?_, ?_⟩
  · calc contents = joinCh '\n' (splitCh '\n' contents) :=
          (joinCh_splitCh '\n' contents).symm
      _ = head ++ (splitCh '\n' contents).getD i [] ++ tail := hdec1
      _ = head ++ mkHooksLine cap ++ tail := by rw [hline]
  · rw [hout]
    exact hdec2 _

theorem rewrite_frame_witness :
    ∃ head cap mid tail,
      "# x\nHOOKS=(block)\ny".toList = head ++ mkHooksLine cap ++ tail ∧
      "# x\nHOOKS=(block lvm2)\ny".toList = head ++ mkHooksLine mid ++ tail :=
  rewrite_frame "# x\nHOOKS=(block)\ny".toList
    "# x\nHOOKS=(block lvm2)\ny".toList true false rfl

/-- C9: whenever the rewrite succeeds with both hooks already present in
the captured list, nothing is inserted, yet the HOOKS line is re-serialized
as the single-space join of the whitespace-split tokens: only the token
sequence of the line is preserved, not its exact bytes. -/
theorem rewrite_normalizes_hooks_line (contents out : List Char)
    (lvm encrypt : Bool) (cap : List Char)
    (h : rewriteContents contents lvm encrypt = .ok out)
    (hcap : hookCapOf contents = some cap)
    (hl : lvm2Tok ∈ pySplit cap) (he : encryptTok ∈ pySplit cap) :
    ∃ head tail, contents = head ++ mkHooksLine cap ++ tail ∧
      out = head ++ mkHooksLine (joinSp (pySplit cap)) ++ tail := by
  rcases rewriteContents_ok_elim h with ⟨i, cap2, bi, hfind, hbi, hout⟩
  have hc : cap2 = cap := by
    unfold hookCapOf at hcap
    rw [hfind] at hcap
    simpa using hcap
  rw [hc] at hfind hbi hout
  obtain ⟨hlen, hmatch⟩ := findHooksIdx_some hfind
  have hline : (splitCh '\n' contents).getD i [] = mkHooksLine cap :=
    eq_mkHooksLine_of_matchHooksLine? hmatch
  rcases joinCh_set_decomp '\n' _ i hlen with ⟨head, tail, hdec1, hdec2⟩
  have hfix : hooksAfter lvm encrypt bi (pySplit cap) = pySplit cap :=
    hooksAfter_eq_of_mem hl he lvm encrypt bi
  refine ⟨head, tail, ?_, ?_⟩
  · calc contents = joinCh '\n' (splitCh '\n' contents) :=
          (joinCh_splitCh '\n' contents).symm
      _ = head ++ (splitCh '\n' contents).getD i [] ++ tail := hdec1
      _ = head ++ mkHooksLine cap ++ tail := by rw [hline]
  · rw [hout, hfix]
    exact hdec2 _

theorem rewrite_normalizes_hooks_line_witness :
    ∃ head tail,
      "HOOKS=(base  block\tlvm2 encrypt)".toList =
        head ++ mkHooksLine "base  block\tlvm2 encrypt".toList ++ tail ∧
      "HOOKS=(base block lvm2 encrypt)".toList =
        head ++ mkHooksLine
          (joinSp (pySplit "base  block\tlvm2 encrypt".toList)) ++ tail :=
  rewrite_normalizes_hooks_line "HOOKS=(base  block\tlvm2 encrypt)".toList
    "HOOKS=(base block lvm2 encrypt)".toList true true
    "base  block\tlvm2 encrypt".toList rfl (by decide) (by decide)
    (by decide)

/-- C10: the operation is insertion-only on the hook list.  On every
successful run the output hook list is the input hook list with a block of
zero, one or two new tokens (drawn from `lvm2`, `encrypt`) spliced in
immediately after the anchor's position: every original token survives at
its relative position, the anchor and everything before it keep their
exact positions, and nothing is removed, duplicated or reordered. -/
theorem rewrite_insertion_only (contents out : List Char)
    (lvm encrypt : Bool) (hooks : List (List Char)) (bi : Nat)
    (h : rewriteContents contents lvm encrypt = .ok out)
    (hparse : hookListOf contents = some hooks)
    (hanchor : listIndex? blockTok hooks = some bi) :
    ∃ ins, hookListOf out =
        some (hooks.take (bi + 1) ++ ins ++ hooks.drop (bi + 1)) ∧
      (ins = [] ∨ ins = [lvm2Tok] ∨ ins = [encryptTok] ∨
        ins = [encryptTok, lvm2Tok]) := by
  rcases hookListOf_elim hparse with ⟨i, cap, hfind, hsplit⟩
  subst hsplit
  rcases rewriteContents_ok_elim h with ⟨i2, cap2, bi2, hfind2, hbi2, hout⟩
  rw [hfind] at hfind2
  have hpair : i = i2 ∧ cap = cap2 := by simpa using hfind2
  obtain ⟨hi, hcap2⟩ := hpair
  subst hi
  subst hcap2
  rw [hanchor] at hbi2
  have hbi : bi = bi2 := Option.some.inj hbi2
  subst hbi
  have hlen : bi < (pySplit cap).length := listIndex?_lt_length hanchor
  rcases hooksAfter_decomp lvm encrypt hlen with ⟨ins, hdecomp, hcases⟩
  have hgood : ∀ t ∈ hooksAfter lvm encrypt bi (pySplit cap), goodTok t :=
    goodTok_of_mem_hooksAfter (goodTok_of_mem_pySplit cap) lvm encrypt bi
  obtain ⟨hs1, hs2, hs3⟩ := parse_of_rewritten hfind hgood
  refine ⟨ins, ?_, hcases⟩
  subst hout
  unfold hookListOf hookCapOf
  rw [hs2]
  simp only [Option.map_some']
  rw [hs3, hdecomp]

theorem rewrite_insertion_only_witness :
    ∃ ins, hookListOf "HOOKS=(a block encrypt lvm2 c)".toList =
        some ((["a".toList, blockTok, lvm2Tok, "c".toList] : List (List Char)).take 2
          ++ ins ++ (["a".toList, blockTok, lvm2Tok, "c".toList] : List (List Char)).drop 2) ∧
      (ins = [] ∨ ins = [lvm2Tok] ∨ ins = [encryptTok] ∨
        ins = [encryptTok, lvm2Tok]) :=
  rewrite_insertion_only "HOOKS=(a block lvm2 c)".toList
    "HOOKS=(a block encrypt lvm2 c)".toList false true
    ["a".toList, blockTok, lvm2Tok, "c".toList] 1 rfl (by decide)
    (by decide)
